import Mathlib

/-!
Verification of the Correlation Engine (`src/correlation.ts`).

The engine groups a batch of `NormalizedEvent`s into `Episode`s:
key-based clustering (`groupEvents`), a one-pass group merge
(`mergeRelatedGroups`), an episode-type classifier
(`determineEpisodeType`), a pairwise causal-graph builder
(`buildCausalGraph` / `inferRelationship`) and an episode assembler
(`createEpisode`).  Everything below is a shallow embedding of that
TypeScript source; JS `Map`s (which iterate in insertion order) become
association lists, JS arrays become `List`s, possibly-`undefined`
values become `Option`s, and the stable JS `Array.prototype.sort`
becomes `List.insertionSort` (a stable sort).
-/

namespace VShield

/-- Code-point lexicographic comparison of char lists; models JS string
comparison (`localeCompare` restricted to the fixed-format, lexically
sortable timestamp strings of the input contract, §6 of the spec). -/
def charsLe : List Char → List Char → Bool
  | [], _ => true
  | _ :: _, [] => false
  | a :: as, b :: bs =>
    if a.toNat < b.toNat then true
    else if b.toNat < a.toNat then false
    else charsLe as bs

/-- Model of `a.localeCompare(b) <= 0` as a boolean on strings. -/
def strLe (a b : String) : Bool := charsLe a.toList b.toList

/-- Models `String.prototype.startsWith` (char-by-char). -/
def charsStarts : List Char → List Char → Bool
  | _, [] => true
  | [], _ :: _ => false
  | a :: as, b :: bs => a == b && charsStarts as bs

def strStartsWith (s p : String) : Bool := charsStarts s.toList p.toList

/-! ## Data model (src/types/schemas.ts) -/

/-- Model of `SourceSchema`: system + adapter + instance.  The engine reads only
`instance` (for the `pr:` correlation key). -/
structure Source where
  system : String
  adapter : String
  instance_ : String
  deriving DecidableEq, Repr, Inhabited

/-- Model of `ActorSchema` (the optional `org` is never read by the engine). -/
structure Actor where
  type : String
  id : String
  display : String
  deriving DecidableEq, Repr, Inhabited

/-- Model of `TargetSchema` (the optional `region` is never read by the engine). -/
structure Target where
  type : String
  id : String
  display : String
  env : Option String := none
  deriving DecidableEq, Repr, Inhabited

/-- Model of `CorrelationSchema`: the optional correlation bag. -/
structure Correlation where
  trace_id : Option String := none
  commit_sha : Option String := none
  pr_number : Option String := none
  ticket_id : Option String := none
  deployment_id : Option String := none
  parent_event_id : Option String := none
  deriving DecidableEq, Repr, Inhabited

/-- Model of `NormalizedEventSchema`.  `kind` and `outcome` are string enums in the
source; the opaque `attributes` map and `evidence` are never read by the
engine and are omitted. -/
structure NormalizedEvent where
  id : String
  time : String
  source : Source
  kind : String
  actor : Actor
  target : Target
  action : String := ""
  outcome : String := "SUCCESS"
  correlation : Option Correlation := none
  deriving DecidableEq, Repr, Inhabited

/-- Model of `EpisodeTypeSchema`. -/
inductive EpisodeType where
  | DeploymentEpisode
  | FlagEpisode
  | AccessEpisode
  | IncidentEpisode
  | PRMergeEpisode
  | CustomEpisode
  deriving DecidableEq, Repr, Inhabited

/-- Model of `EdgeTypeSchema`. -/
inductive RelType where
  | CAUSES
  | TRIGGERS
  | RELATES_TO
  | FOLLOWS
  deriving DecidableEq, Repr, Inhabited

/-- Model of `GraphEdgeSchema` (`from`/`to` are Lean keywords, hence `fromId`/`toId`). -/
structure EpisodeEdge where
  fromId : String
  toId : String
  type : RelType
  deriving DecidableEq, Repr, Inhabited

/-- Model of `EpisodeGraphSchema`. -/
structure EpisodeGraph where
  nodes : List String
  edges : List EpisodeEdge
  deriving DecidableEq, Repr, Inhabited

/-- Model of `EpisodeSchema`. -/
structure Episode where
  id : String
  type : EpisodeType
  start_time : String
  end_time : String
  primary_actor : Option Actor
  primary_target : Option Target
  events : List String
  graph : EpisodeGraph
  deriving DecidableEq, Repr, Inhabited

/-! ## `new Date(s).getTime()` on fixed-format ISO-8601 UTC timestamps

The input contract (§6) requires `time` to be a fixed-format, lexically
sortable timestamp string (`z.string().datetime()`, i.e. ISO-8601 UTC
`YYYY-MM-DDTHH:MM:SS[.sss]Z`).  `dateGetTime` computes the epoch
milliseconds of such a string, which is what `Date.getTime` returns.
All intermediate operands are nonnegative for post-1970 dates, so the
rounding convention of `Int` division is immaterial on the contract's
inputs. -/

/-- Numeric value of a run of ASCII digits. -/
def digitsVal (cs : List Char) : Nat := cs.foldl (fun a c => a * 10 + (c.toNat - 48)) 0

/-- Slice of `n` characters of `s` starting at index `i`. -/
def strSlice (s : String) (i n : Nat) : List Char := (s.toList.drop i).take n

/-- Days from 1970-01-01 of civil date y-m-d (Hinnant's civil-from-days
algorithm, inverted). -/
def daysFromCivil (y m d : Int) : Int :=
  let y2 := if m ≤ 2 then y - 1 else y
  let era := (if 0 ≤ y2 then y2 else y2 - 399) / 400
  let yoe := y2 - era * 400
  let mp := (m + 9) % 12
  let doy := (153 * mp + 2) / 5 + d - 1
  let doe := yoe * 365 + yoe / 4 - yoe / 100 + doy
  era * 146097 + doe - 719468

/-- Epoch milliseconds of `YYYY-MM-DDTHH:MM:SS[.sss]Z`. -/
def dateGetTime (s : String) : Int :=
  let y : Int := digitsVal (strSlice s 0 4)
  let mo : Int := digitsVal (strSlice s 5 2)
  let d : Int := digitsVal (strSlice s 8 2)
  let h : Int := digitsVal (strSlice s 11 2)
  let mi : Int := digitsVal (strSlice s 14 2)
  let sec : Int := digitsVal (strSlice s 17 2)
  let ms : Int := if s.toList.length ≥ 24 then digitsVal (strSlice s 20 3) else 0
  daysFromCivil y mo d * 86400000 + h * 3600000 + mi * 60000 + sec * 1000 + ms

/-! ## Key Extractor (`getCorrelationKeys`, correlation.ts lines 92-103) -/

/-- Model of `event.correlation?.field`: `undefined` when the bag or the field is
missing. -/
def corrField (e : NormalizedEvent) (f : Correlation → Option String) : Option String :=
  e.correlation.bind f

/-- JS truthiness of a possibly-undefined string: present and non-empty. -/
def truthyStr : Option String → Bool
  | none => false
  | some s => !(s == "")

/-- One `if (v) keys.push(render(v))` step: pushes the rendered key when
the field is truthy (present and non-empty). -/
def pushIf (v : Option String) (render : String → String) : List String :=
  match v with
  | some s => if s == "" then [] else [render s]
  | none => []

/-- Model of `getCorrelationKeys`: the ordered correlation-key list of an event.
Priority: deployment, pr (qualified by the source instance), commit,
trace, ticket; falsy fields are omitted. -/
def getCorrelationKeys (event : NormalizedEvent) : List String :=
  pushIf (corrField event Correlation.deployment_id) (fun v => "deployment:" ++ v)
    ++ pushIf (corrField event Correlation.pr_number)
      (fun v => "pr:" ++ event.source.instance_ ++ ":" ++ v)
    ++ pushIf (corrField event Correlation.commit_sha) (fun v => "commit:" ++ v)
    ++ pushIf (corrField event Correlation.trace_id) (fun v => "trace:" ++ v)
    ++ pushIf (corrField event Correlation.ticket_id) (fun v => "ticket:" ++ v)

/-! ## Grouping Engine (`groupEvents` / `mergeRelatedGroups`, lines 48-152)

A JS `Map<string, NormalizedEvent[]>` iterates in insertion order, so it
is embedded as an association list. -/

abbrev EventGroups := List (String × List NormalizedEvent)

/-- Inner scan of the seed-assignment phase: the first existing group (in
creation order) holding an event whose key list contains `key`. -/
def scanForKey (groups : EventGroups) (key : String) : Option String :=
  groups.findSome? fun g =>
    if g.2.any (fun e => (getCorrelationKeys e).contains key) then some g.1 else none

/-- The triple loop of lines 58-71: first correlation key (in priority
order) that already belongs to a group wins. -/
def findExistingGroupKey (groups : EventGroups) (keys : List String) : Option String :=
  keys.findSome? (scanForKey groups)

/-- Model of `groups.get(groupKey).push(event)`, creating the group when absent
(lines 78-81). -/
def addToGroup (groups : EventGroups) (gk : String) (e : NormalizedEvent) : EventGroups :=
  if groups.any (fun g => g.1 == gk) then
    groups.map (fun g => if g.1 == gk then (g.1, g.2 ++ [e]) else g)
  else groups ++ [(gk, [e])]

/-- The group key chosen for an event (lines 56-76): first matching
existing group, else the primary key, else a synthetic per-event key. -/
def seedChoice (groups : EventGroups) (event : NormalizedEvent) : String :=
  match findExistingGroupKey groups (getCorrelationKeys event) with
  | some k => k
  | none => (getCorrelationKeys event).headD ("event:" ++ event.id)

/-- Seed assignment (lines 52-83): process events in batch order; an
event joins the first matching group, or starts a new one keyed by its
primary key (index 0) or a synthetic `event:<id>` key. -/
def seedGroups (events : List NormalizedEvent) : EventGroups :=
  events.foldl (fun groups event => addToGroup groups (seedChoice groups event) event) []

/-- Model of `groupsAreRelated` (lines 147-152): the key unions intersect. -/
def groupsAreRelated (group1 group2 : List NormalizedEvent) : Bool :=
  let keys1 := (group1.map getCorrelationKeys).flatten
  ((group2.map getCorrelationKeys).flatten).any (fun k => keys1.contains k)

/-- Model of `a.time ≤ b.time` under the comparator of
`sort((a, b) => a.time.localeCompare(b.time))`. -/
def timeLE (a b : NormalizedEvent) : Prop := strLe a.time b.time = true

instance : DecidableRel timeLE := fun a b => inferInstanceAs (Decidable (strLe a.time b.time = true))

/-- Stable in-place JS sort by ascending time string. -/
def sortEventsByTime (events : List NormalizedEvent) : List NormalizedEvent :=
  List.insertionSort timeLE events

/-- One iteration of the single merge pass (lines 112-139); `groups` is
the full seed map, the accumulator carries the merged map and the
processed keys. -/
def mergeStep (groups : EventGroups) :
    EventGroups × List String → (String × List NormalizedEvent) → EventGroups × List String
  | (merged, processed), g =>
    if processed.contains g.1 then (merged, processed)
    else
      let others := groups.filter fun og =>
        !(og.1 == g.1) && !(processed.contains og.1) && groupsAreRelated g.2 og.2
      let relatedEvents := g.2 ++ (others.map (·.2)).flatten
      (merged ++ [(g.1, sortEventsByTime relatedEvents)], processed ++ g.1 :: others.map (·.1))

/-- Model of `mergeRelatedGroups` (lines 108-142): one pass, not a fixed point. -/
def mergeRelatedGroups (groups : EventGroups) : EventGroups :=
  (groups.foldl (mergeStep groups) ([], [])).1

/-- Model of `groupEvents` (lines 48-87): seed assignment followed by the merge
pass; each final group is sorted ascending by time. -/
def groupEvents (events : List NormalizedEvent) : EventGroups :=
  mergeRelatedGroups (seedGroups events)

/-! ## Episode Type Classifier (`determineEpisodeType`, lines 157-167)

JS `Set.has` on `new Set(events.map(e => e.kind))` is membership in the
kind list. -/

def determineEpisodeType (events : List NormalizedEvent) : EpisodeType :=
  let kinds := events.map (·.kind)
  if kinds.contains "DEPLOYMENT" then .DeploymentEpisode
  else if kinds.contains "FEATURE_FLAG" then .FlagEpisode
  else if kinds.contains "ACCESS_GRANT" || kinds.contains "ACCESS_REVOKE" then .AccessEpisode
  else if kinds.contains "INCIDENT" then .IncidentEpisode
  else if kinds.contains "PR_MERGED" then .PRMergeEpisode
  else .CustomEpisode

/-! ## Causal Graph Builder (`inferRelationship` / `buildCausalGraph`,
lines 219-297)

Each rule of `inferRelationship` is a nested `if` in the source whose
inner `return` fires only when both the kind test and the correlation
test hold; a failed correlation test falls through to the next rule.
`===` on possibly-undefined fields is `Option` equality (in particular
`undefined === undefined` is true); rules 5 and 6 additionally require
the earlier field to be truthy. -/

abbrev rule1Cond (earlier later : NormalizedEvent) : Prop :=
  earlier.kind = "PR_MERGED" ∧ later.kind = "DEPLOYMENT" ∧
    corrField earlier Correlation.commit_sha = corrField later Correlation.commit_sha

abbrev rule2Cond (earlier later : NormalizedEvent) : Prop :=
  earlier.kind = "DEPLOYMENT" ∧ later.kind = "TRACE" ∧
    corrField earlier Correlation.deployment_id = corrField later Correlation.deployment_id

abbrev rule3Cond (earlier later : NormalizedEvent) : Prop :=
  earlier.kind = "FEATURE_FLAG" ∧ later.kind = "TRACE"

abbrev rule4Cond (earlier later : NormalizedEvent) : Prop :=
  strStartsWith earlier.kind "PR_" = true ∧ strStartsWith later.kind "PR_" = true ∧
    corrField earlier Correlation.pr_number = corrField later Correlation.pr_number

abbrev rule5Cond (earlier later : NormalizedEvent) : Prop :=
  truthyStr (corrField earlier Correlation.trace_id) = true ∧
    corrField earlier Correlation.trace_id = corrField later Correlation.trace_id

abbrev rule6Cond (earlier later : NormalizedEvent) : Prop :=
  truthyStr (corrField earlier Correlation.deployment_id) = true ∧
    corrField earlier Correlation.deployment_id = corrField later Correlation.deployment_id

abbrev rule7Cond (earlier later : NormalizedEvent) : Prop :=
  dateGetTime later.time - dateGetTime earlier.time < 5 * 60 * 1000 ∧
    earlier.target.id = later.target.id

/-- Model of `inferRelationship` (lines 248-297): first matching rule wins. -/
def inferRelationship (earlier later : NormalizedEvent) : Option RelType :=
  if rule1Cond earlier later then some .CAUSES
  else if rule2Cond earlier later then some .TRIGGERS
  else if rule3Cond earlier later then some .TRIGGERS
  else if rule4Cond earlier later then some .FOLLOWS
  else if rule5Cond earlier later then some .RELATES_TO
  else if rule6Cond earlier later then some .RELATES_TO
  else if rule7Cond earlier later then some .FOLLOWS
  else none

/-- The double loop of lines 224-240: for every ordered pair `(i, j)`
with `i < j` in list order, an edge when a rule matches. -/
def pairEdges : List NormalizedEvent → List EpisodeEdge
  | [] => []
  | event :: rest =>
    rest.filterMap (fun laterEvent =>
      (inferRelationship event laterEvent).map fun t =>
        { fromId := event.id, toId := laterEvent.id, type := t })
      ++ pairEdges rest

/-- Model of `buildCausalGraph` (lines 219-243). -/
def buildCausalGraph (events : List NormalizedEvent) : EpisodeGraph :=
  { nodes := events.map (·.id), edges := pairEdges events }

/-! ## Episode Assembler (`createEpisode`, lines 172-214)

The actor/target counting loops use a JS `Map` keyed by id whose values
hold the first-encountered object and a count; `Array.from(values())`
yields insertion order, and the stable sort by descending count then
takes element 0. -/

/-- Comparator `(a, b) => b.count - a.count`: descending by count. -/
def countGE {α : Type} (p q : α × Nat) : Prop := q.2 ≤ p.2

instance {α : Type} : DecidableRel (countGE (α := α)) :=
  fun p q => inferInstanceAs (Decidable (q.2 ≤ p.2))

/-- One iteration of the counting loop (lines 178-186): bump the entry
with this key, else append a fresh `(object, 1)` entry. -/
def bumpCount {α : Type} (key : α → String) (m : List (α × Nat)) (a : α) : List (α × Nat) :=
  if m.any (fun p => key p.1 == key a) then
    m.map (fun p => if key p.1 == key a then (p.1, p.2 + 1) else p)
  else m ++ [(a, 1)]

/-- The whole counting loop over the group's events in given order. -/
def countsBy {α : Type} (key : α → String) (l : List α) : List (α × Nat) :=
  l.foldl (bumpCount key) []

/-- Model of `Array.from(counts.values()).sort((a, b) => b.count - a.count)[0]?.x`
(lines 187-188 and 201-202). -/
def pickPrimary {α : Type} (key : α → String) (l : List α) : Option α :=
  ((List.insertionSort countGE (countsBy key l)).head?).map (·.1)

/-- Model of `arr[arr.length - 1]`, with the `Inhabited` default standing in for
the out-of-bounds `undefined` (never reached: groups are non-empty). -/
def lastEvent : List NormalizedEvent → NormalizedEvent
  | [] => default
  | [a] => a
  | _ :: rest => lastEvent rest

/-- Model of `createEpisode` (lines 172-214).  `generateId` (a ULID supplier from
`src/utils`, not part of the engine) is modelled by the caller-provided
fresh id `eid`. -/
def createEpisode (eid : String) (events : List NormalizedEvent) (type : EpisodeType) : Episode :=
  let sortedEvents := sortEventsByTime events
  let graph := buildCausalGraph sortedEvents
  let primaryActor := pickPrimary Actor.id (events.map (·.actor))
  let primaryTarget := pickPrimary Target.id (events.map (·.target))
  { id := eid
    type := type
    start_time := sortedEvents.headI.time
    end_time := (lastEvent sortedEvents).time
    primary_actor := primaryActor
    primary_target := primaryTarget
    events := sortedEvents.map (·.id)
    graph := graph }

/-! ## `correlate` (lines 18-30) -/

/-- Fresh episode ids, unique within one call (stands in for the ULIDs of
`generateId`; no claim depends on their shape). -/
def episodeId (i : Nat) : String := "episode-" ++ toString i

/-- The pure value of the `correlate` loop: one episode per final group,
in group order. -/
def correlateFrom (i : Nat) : EventGroups → List Episode
  | [] => []
  | g :: rest =>
    createEpisode (episodeId i) g.2 (determineEpisodeType g.2) :: correlateFrom (i + 1) rest

/-- The episode list returned by a successful `correlate(events)` call. -/
def correlate (events : List NormalizedEvent) : List Episode :=
  correlateFrom 0 (groupEvents events)

/-! ## `correlate` against the Storage collaborator

`Storage.saveEpisode` lives outside `src/` (spec §6: `saveEpisode(Episode)
→ acknowledgement or failure`); it is modelled as an abstract fallible
state transformer on the stored-episode list. -/

/-- The Storage collaborator's episode store. -/
structure StorageState where
  episodes : List Episode
  deriving DecidableEq, Repr, Inhabited

/-- Modelled from the spec: `saveEpisode(Episode) → acknowledgement or
failure` (§6); `none` is a rejected write, `some` the updated store. -/
abbrev SaveEpisodeFn := Episode → StorageState → Option StorageState

/-- Result of one `correlate` call made against Storage: the returned
episode list plus the final store, or a storage failure carrying the
store as it stands when the write rejects. -/
inductive CorrelateResult where
  | ok : List Episode → StorageState → CorrelateResult
  | storageError : StorageState → CorrelateResult
  deriving DecidableEq, Repr, Inhabited

/-- The `correlate` loop (lines 22-27): assemble an episode per group and
`await storage.saveEpisode(episode)` before pushing it; a rejected write
aborts the whole call. -/
def correlateGo (save : SaveEpisodeFn) :
    EventGroups → Nat → StorageState → List Episode → CorrelateResult
  | [], _, st, acc => .ok acc st
  | g :: rest, i, st, acc =>
    let episode := createEpisode (episodeId i) g.2 (determineEpisodeType g.2)
    match save episode st with
    | none => .storageError st
    | some st2 => correlateGo save rest (i + 1) st2 (acc ++ [episode])

/-- Model of `correlate(events)` run against a Storage in state `st`. -/
def correlateWithStorage (save : SaveEpisodeFn) (events : List NormalizedEvent)
    (st : StorageState) : CorrelateResult :=
  correlateGo save (groupEvents events) 0 st []

/-- Saving a list of episodes in order, all writes succeeding. -/
def saveUpTo (save : SaveEpisodeFn) (st : StorageState) : List Episode → Option StorageState
  | [] => some st
  | e :: rest =>
    match save e st with
    | none => none
    | some st2 => saveUpTo save st2 rest

/-! ## Analysis helpers

Closed forms used to characterize the fold-based counting loop and the
stable sort; these are proof devices, derived below, not part of the
embedding itself. -/

/-- First element of a count list under "highest count wins, earlier
entry wins ties" (the head of the stable descending sort). -/
def pickMaxFirst {α : Type} : List (α × Nat) → Option (α × Nat)
  | [] => none
  | x :: xs =>
    match pickMaxFirst xs with
    | none => some x
    | some y => if x.2 < y.2 then some y else some x

/-- Number of elements of `l` whose key is `s`. -/
def cntKey {α : Type} (key : α → String) (l : List α) (s : String) : Nat :=
  (l.filter (fun x => key x == s)).length

/-- Bump every accumulator entry by the number of matching keys in `l`. -/
def addCountsFrom {α : Type} (key : α → String) (l : List α) (acc : List (α × Nat)) :
    List (α × Nat) :=
  acc.map (fun p => (p.1, p.2 + cntKey key l (key p.1)))

/-- The elements of `l` whose key is absent from the accumulator. -/
def newOf {α : Type} (key : α → String) (acc : List (α × Nat)) (l : List α) : List α :=
  l.filter (fun x => !(acc.any (fun p => key p.1 == key x)))

/-- Closed form of the counting loop: first occurrence of each key, in
first-encounter order, paired with the key's multiplicity. -/
def canonCounts {α : Type} (key : α → String) : List α → List (α × Nat)
  | [] => []
  | a :: as =>
    (a, (as.filter (fun x => key x == key a)).length + 1) ::
      canonCounts key (as.filter (fun x => !(key x == key a)))
  termination_by l => l.length
  decreasing_by
    simp only [List.length_cons]
    exact Nat.lt_succ_of_le (List.length_filter_le _ _)

/-- The first occurrence of each key of `l`, in first-encounter order. -/
def firstOccs {α : Type} (key : α → String) : List α → List α
  | [] => []
  | a :: as => a :: firstOccs key (as.filter (fun x => !(key x == key a)))
  termination_by l => l.length
  decreasing_by
    simp only [List.length_cons]
    exact Nat.lt_succ_of_le (List.length_filter_le _ _)

/-- Largest count in a count list. -/
def maxSnd {α : Type} (m : List (α × Nat)) : Nat := (m.map (·.2)).foldr max 0

/-- The distinct `kind` values of a group, as `new Set(events.map(e =>
e.kind))` enumerates them. -/
def distinctKinds (events : List NormalizedEvent) : List String :=
  firstOccs (fun s => s) (events.map (·.kind))

/-! ## Spec-side definitions

Each is written from the spec's words, to be compared with the
corresponding definition taken from the source. -/

/-- One key of the spec's Key Extractor: emitted with its prefix when the
field is present (a present-but-empty string is falsy in the source and
is treated as absent, per §7's "accessing a missing field is treated as
absent"). -/
def keyIfPresent (p : String) (v : Option String) : List String :=
  match v with
  | some s => if s = "" then [] else [p ++ s]
  | none => []

/-- Modelled from the spec (§4.1): ordered key list in the fixed priority
deployment, pr (qualified by source instance), commit, trace, ticket,
omitting absent fields. -/
def specCorrelationKeys (e : NormalizedEvent) : List String :=
  keyIfPresent "deployment:" (corrField e Correlation.deployment_id)
    ++ keyIfPresent ("pr:" ++ e.source.instance_ ++ ":") (corrField e Correlation.pr_number)
    ++ keyIfPresent "commit:" (corrField e Correlation.commit_sha)
    ++ keyIfPresent "trace:" (corrField e Correlation.trace_id)
    ++ keyIfPresent "ticket:" (corrField e Correlation.ticket_id)

/-- Modelled from the spec (§4.3): first match over the set of distinct
kinds in the fixed priority. -/
def specClassify (kinds : List String) : EpisodeType :=
  if "DEPLOYMENT" ∈ kinds then .DeploymentEpisode
  else if "FEATURE_FLAG" ∈ kinds then .FlagEpisode
  else if "ACCESS_GRANT" ∈ kinds ∨ "ACCESS_REVOKE" ∈ kinds then .AccessEpisode
  else if "INCIDENT" ∈ kinds then .IncidentEpisode
  else if "PR_MERGED" ∈ kinds then .PRMergeEpisode
  else .CustomEpisode

/-- Modelled from the spec (§4.5): the actor of highest occurrence count
across the group's events, ties broken to the id first encountered while
iterating events in their given order; the stored object is the
first-encountered actor with that id. -/
def specPrimaryActor (events : List NormalizedEvent) : Option Actor :=
  let occ := fun i => (events.filter (fun e => e.actor.id == i)).length
  let best := (events.map (fun e => occ e.actor.id)).foldr max 0
  (events.find? (fun e => occ e.actor.id == best)).map (·.actor)

/-- Modelled from the spec (§4.5): `primary_target`, computed identically
over target ids. -/
def specPrimaryTarget (events : List NormalizedEvent) : Option Target :=
  let occ := fun i => (events.filter (fun e => e.target.id == i)).length
  let best := (events.map (fun e => occ e.target.id)).foldr max 0
  (events.find? (fun e => occ e.target.id == best)).map (·.target)

/-! ## Concrete fixtures (witness inputs) -/

def evPR : NormalizedEvent :=
  { id := "ev1", time := "2024-01-01T10:00:00.000Z"
    source := { system := "github", adapter := "github", instance_ := "repo1" }
    kind := "PR_MERGED"
    actor := { type := "user", id := "alice", display := "Alice" }
    target := { type := "service", id := "svc1", display := "Service 1" }
    correlation := some { commit_sha := some "abc123" } }

def evDep : NormalizedEvent :=
  { id := "ev2", time := "2024-01-01T10:05:00.000Z"
    source := { system := "kubernetes", adapter := "k8s", instance_ := "prod" }
    kind := "DEPLOYMENT"
    actor := { type := "service", id := "deployer", display := "Deployer" }
    target := { type := "service", id := "svc1", display := "Service 1" }
    correlation := some { commit_sha := some "abc123" } }

def mkTraceEv (i t tid : String) : NormalizedEvent :=
  { id := i, time := t
    source := { system := "otel", adapter := "otel", instance_ := "o" }
    kind := "TRACE"
    actor := { type := "service", id := "svc", display := "svc" }
    target := { type := "service", id := "api", display := "api" }
    correlation := some { trace_id := some tid } }

def trA : NormalizedEvent := mkTraceEv "A" "2024-01-01T10:00:00.000Z" "X"
def trB : NormalizedEvent := mkTraceEv "B" "2024-01-01T10:01:00.000Z" "X"
def trC : NormalizedEvent := mkTraceEv "C" "2024-01-01T10:02:00.000Z" "Y"

def evGrant : NormalizedEvent :=
  { id := "g1", time := "2024-01-01T09:59:00.000Z"
    source := { system := "iam", adapter := "iam", instance_ := "main" }
    kind := "ACCESS_GRANT"
    actor := { type := "user", id := "bob", display := "Bob" }
    target := { type := "env", id := "prod", display := "prod" }
    correlation := some { deployment_id := some "789" } }

def evDepD : NormalizedEvent :=
  { id := "d1", time := "2024-01-01T10:00:00.000Z"
    source := { system := "kubernetes", adapter := "k8s", instance_ := "prod" }
    kind := "DEPLOYMENT"
    actor := { type := "service", id := "deployer", display := "Deployer" }
    target := { type := "service", id := "svc1", display := "Service 1" }
    correlation := some { deployment_id := some "789" } }

def mkPlainEv (i t kindStr actorId targetId : String) : NormalizedEvent :=
  { id := i, time := t
    source := { system := "custom", adapter := "c", instance_ := "x" }
    kind := kindStr
    actor := { type := "user", id := actorId, display := actorId }
    target := { type := "service", id := targetId, display := targetId } }

def evPlainA : NormalizedEvent := mkPlainEv "A" "2024-01-01T10:00:00.000Z" "CUSTOM" "u1" "t1"
def evPlainB : NormalizedEvent := mkPlainEv "B" "2024-01-01T11:00:00.000Z" "CUSTOM" "u2" "t2"

/-- Boundary pair for rule 7: same target id, exactly 5x60x1000 ms
apart, no correlation fields, non-classifying kinds. -/
def bnd1 : NormalizedEvent := mkPlainEv "b1" "2024-01-01T10:00:00.000Z" "CUSTOM" "u1" "t1"
def bnd2 : NormalizedEvent := mkPlainEv "b2" "2024-01-01T10:05:00.000Z" "CUSTOM" "u2" "t1"

def evPRM : NormalizedEvent := mkPlainEv "p1" "2024-01-01T10:00:00.000Z" "PR_MERGED" "u1" "t1"
def evDEP : NormalizedEvent := mkPlainEv "p2" "2024-01-01T10:01:00.000Z" "DEPLOYMENT" "u1" "t9"
def evTRC : NormalizedEvent := mkPlainEv "p3" "2024-01-01T10:02:00.000Z" "TRACE" "u1" "t8"
def evPRO : NormalizedEvent := mkPlainEv "p4" "2024-01-01T10:03:00.000Z" "PR_OPENED" "u1" "t7"
def evPRA : NormalizedEvent := mkPlainEv "p5" "2024-01-01T10:04:00.000Z" "PR_APPROVED" "u1" "t6"

/-- A Storage whose second `saveEpisode` call rejects. -/
def saveFailSecond : SaveEpisodeFn := fun ep st =>
  if st.episodes.length == 1 then none else some ⟨st.episodes ++ [ep]⟩

/-! # Theorems -/

/-! ## Projections of `createEpisode` -/

theorem createEpisode_start (eid : String) (events : List NormalizedEvent) (t : EpisodeType) :
    (createEpisode eid events t).start_time = (sortEventsByTime events).headI.time := rfl

theorem createEpisode_end (eid : String) (events : List NormalizedEvent) (t : EpisodeType) :
    (createEpisode eid events t).end_time = (lastEvent (sortEventsByTime events)).time := rfl

theorem createEpisode_events (eid : String) (events : List NormalizedEvent) (t : EpisodeType) :
    (createEpisode eid events t).events = (sortEventsByTime events).map (·.id) := rfl

theorem createEpisode_graph (eid : String) (events : List NormalizedEvent) (t : EpisodeType) :
    (createEpisode eid events t).graph = buildCausalGraph (sortEventsByTime events) := rfl

theorem createEpisode_primaryActor (eid : String) (events : List NormalizedEvent)
    (t : EpisodeType) :
    (createEpisode eid events t).primary_actor = pickPrimary Actor.id (events.map (·.actor)) := rfl

theorem createEpisode_primaryTarget (eid : String) (events : List NormalizedEvent)
    (t : EpisodeType) :
    (createEpisode eid events t).primary_target =
      pickPrimary Target.id (events.map (·.target)) := rfl

/-! ## The time order is a total preorder -/

theorem charsLe_refl : ∀ as, charsLe as as = true
  | [] => rfl
  | a :: as => by simp [charsLe, Nat.lt_irrefl, charsLe_refl as]

theorem charsLe_total : ∀ as bs, charsLe as bs = true ∨ charsLe bs as = true
  | [], _ => Or.inl rfl
  | _ :: _, [] => Or.inr rfl
  | a :: as, b :: bs => by
    rcases Nat.lt_trichotomy a.toNat b.toNat with h | h | h
    · left; simp [charsLe, h]
    · simpa [charsLe, h, Nat.lt_irrefl] using charsLe_total as bs
    · right; simp [charsLe, h]

theorem charsLe_trans :
    ∀ as bs cs, charsLe as bs = true → charsLe bs cs = true → charsLe as cs = true
  | [], _, _, _, _ => rfl
  | _ :: _, [], _, h1, _ => by simp [charsLe] at h1
  | _ :: _, _ :: _, [], _, h2 => by simp [charsLe] at h2
  | a :: as, b :: bs, c :: cs, h1, h2 => by
    simp only [charsLe] at h1 h2 ⊢
    by_cases hab : a.toNat < b.toNat
    · by_cases hbc : b.toNat < c.toNat
      · have hac : a.toNat < c.toNat := hab.trans hbc
        simp [hac]
      · rw [if_neg hbc] at h2
        by_cases hcb : c.toNat < b.toNat
        · rw [if_pos hcb] at h2; exact absurd h2 (by simp)
        · have hac : a.toNat < c.toNat := by omega
          simp [hac]
    · rw [if_neg hab] at h1
      by_cases hba : b.toNat < a.toNat
      · rw [if_pos hba] at h1; exact absurd h1 (by simp)
      · rw [if_neg hba] at h1
        by_cases hbc : b.toNat < c.toNat
        · have hac : a.toNat < c.toNat := by omega
          simp [hac]
        · rw [if_neg hbc] at h2
          by_cases hcb : c.toNat < b.toNat
          · rw [if_pos hcb] at h2; exact absurd h2 (by simp)
          · rw [if_neg hcb] at h2
            have hac : ¬ a.toNat < c.toNat := by omega
            have hca : ¬ c.toNat < a.toNat := by omega
            rw [if_neg hac, if_neg hca]
            exact charsLe_trans as bs cs h1 h2

theorem timeLE_refl (a : NormalizedEvent) : timeLE a a := charsLe_refl a.time.toList

instance : IsTotal NormalizedEvent timeLE :=
  ⟨fun a b => charsLe_total a.time.toList b.time.toList⟩

instance : IsTrans NormalizedEvent timeLE :=
  ⟨fun a b c => charsLe_trans a.time.toList b.time.toList c.time.toList⟩

instance {α : Type} : IsTotal (α × Nat) countGE := ⟨fun p q => le_total q.2 p.2⟩

instance {α : Type} : IsTrans (α × Nat) countGE := ⟨fun _ _ _ h1 h2 => le_trans h2 h1⟩

/-! ## Head and last of a time-sorted list -/

theorem headI_mem {α : Type} [Inhabited α] (l : List α) (h : l ≠ []) : l.headI ∈ l := by
  cases l with
  | nil => exact absurd rfl h
  | cons a t => exact List.mem_cons_self a t

theorem lastEvent_mem : ∀ (l : List NormalizedEvent), l ≠ [] → lastEvent l ∈ l
  | [], h => absurd rfl h
  | [a], _ => by simp [lastEvent]
  | a :: b :: t, _ => by
    have hmem := lastEvent_mem (b :: t) (by simp)
    exact List.mem_cons_of_mem a hmem

theorem sorted_headI_le {l : List NormalizedEvent} (hs : l.Sorted timeLE)
    (e : NormalizedEvent) (he : e ∈ l) : timeLE l.headI e := by
  cases l with
  | nil => cases he
  | cons a t =>
    rcases List.mem_cons.mp he with rfl | he2
    · exact timeLE_refl _
    · exact List.rel_of_sorted_cons hs e he2

theorem sorted_le_lastEvent :
    ∀ {l : List NormalizedEvent}, l.Sorted timeLE → ∀ e ∈ l, timeLE e (lastEvent l)
  | [], _, e, he => absurd he (List.not_mem_nil e)
  | [a], _, e, he => by
    rw [List.mem_singleton] at he
    subst he
    exact timeLE_refl _
  | a :: b :: t, hs, e, he => by
    show timeLE e (lastEvent (b :: t))
    rcases List.mem_cons.mp he with rfl | he2
    · exact List.rel_of_sorted_cons hs _ (lastEvent_mem (b :: t) (by simp))
    · exact sorted_le_lastEvent (List.Sorted.of_cons hs) e he2

/-- Claim C4: for a non-empty group, the assembled episode's `events` are
the member ids sorted ascending by time, and `start_time`/`end_time` are
the least/greatest member times under the lexicographic string order:
both bound every member's time and both are attained by a member. -/
theorem createEpisode_time_bounds (eid : String) (t : EpisodeType)
    (events : List NormalizedEvent) (hne : events ≠ []) :
    (createEpisode eid events t).events = (sortEventsByTime events).map (·.id) ∧
    (sortEventsByTime events).Perm events ∧
    (sortEventsByTime events).Sorted timeLE ∧
    (∀ e ∈ events,
      strLe (createEpisode eid events t).start_time e.time = true ∧
      strLe e.time (createEpisode eid events t).end_time = true) ∧
    (∃ e ∈ events, (createEpisode eid events t).start_time = e.time) ∧
    (∃ e ∈ events, (createEpisode eid events t).end_time = e.time) := by
  have hperm : (sortEventsByTime events).Perm events := List.perm_insertionSort _ _
  have hsort : (sortEventsByTime events).Sorted timeLE := List.sorted_insertionSort _ _
  have hne2 : sortEventsByTime events ≠ [] := by
    intro h
    rw [h] at hperm
    exact hne (hperm.symm.eq_nil)
  refine ⟨rfl, hperm, hsort, ?_, ?_, ?_⟩
  · intro e he
    have hes : e ∈ sortEventsByTime events := hperm.mem_iff.mpr he
    rw [createEpisode_start, createEpisode_end]
    exact ⟨sorted_headI_le hsort e hes, sorted_le_lastEvent hsort e hes⟩
  · exact ⟨(sortEventsByTime events).headI,
      hperm.mem_iff.mp (headI_mem _ hne2), createEpisode_start _ _ _⟩
  · exact ⟨lastEvent (sortEventsByTime events),
      hperm.mem_iff.mp (lastEvent_mem _ hne2), createEpisode_end _ _ _⟩

/-- Witness for C4 at a concrete two-event group. -/
theorem createEpisode_time_bounds_witness :
    ([evPR, evDep] : List NormalizedEvent) ≠ [] ∧
    (∀ e ∈ ([evPR, evDep] : List NormalizedEvent),
      strLe (createEpisode "w" [evPR, evDep] .CustomEpisode).start_time e.time = true ∧
      strLe e.time (createEpisode "w" [evPR, evDep] .CustomEpisode).end_time = true) ∧
    (∃ e ∈ ([evPR, evDep] : List NormalizedEvent),
      (createEpisode "w" [evPR, evDep] .CustomEpisode).start_time = e.time) :=
  ⟨by decide,
    (createEpisode_time_bounds "w" .CustomEpisode [evPR, evDep] (by decide)).2.2.2.1,
    (createEpisode_time_bounds "w" .CustomEpisode [evPR, evDep] (by decide)).2.2.2.2.1⟩

/-! ## Scenario claims C2 and C3 -/

/-- Claim C2 (Scenario A): PR_MERGED then DEPLOYMENT sharing
commit_sha "abc123", five minutes apart, correlate into exactly one
DeploymentEpisode whose graph has the single CAUSES edge ev1 -> ev2. -/
theorem correlate_scenarioA :
    (correlate [evPR, evDep]).length = 1 ∧
    (correlate [evPR, evDep]).map (·.type) = [EpisodeType.DeploymentEpisode] ∧
    (correlate [evPR, evDep]).map (·.graph.edges) =
      [[{ fromId := "ev1", toId := "ev2", type := RelType.CAUSES }]] := by
  decide

/-- Claim C3 (Scenario C): trace X, trace X, trace Y yield exactly the
two groups {A, B} and {C}, hence two episodes. -/
theorem correlate_scenarioC :
    (correlate [trA, trB, trC]).length = 2 ∧
    (correlate [trA, trB, trC]).map (·.events) = [["A", "B"], ["C"]] := by
  decide

/-! ## Claim C6: the rule-7 boundary -/

/-- Claim C6: when none of rules 1-6 matches, rule 7 emits FOLLOWS
exactly when the millisecond delta is strictly below 5x60x1000 and the
target ids agree. -/
theorem inferRelationship_rule7_boundary (earlier later : NormalizedEvent)
    (h1 : ¬ rule1Cond earlier later) (h2 : ¬ rule2Cond earlier later)
    (h3 : ¬ rule3Cond earlier later) (h4 : ¬ rule4Cond earlier later)
    (h5 : ¬ rule5Cond earlier later) (h6 : ¬ rule6Cond earlier later) :
    inferRelationship earlier later = some RelType.FOLLOWS ↔
      (dateGetTime later.time - dateGetTime earlier.time < 5 * 60 * 1000 ∧
        earlier.target.id = later.target.id) := by
  unfold inferRelationship
  rw [if_neg h1, if_neg h2, if_neg h3, if_neg h4, if_neg h5, if_neg h6]
  by_cases h7 : rule7Cond earlier later
  · rw [if_pos h7]
    exact ⟨fun _ => h7, fun _ => rfl⟩
  · rw [if_neg h7]
    constructor
    · intro h
      exact absurd h (by simp)
    · intro hc
      exact absurd hc h7

/-- Witness for C6 at the exact 5x60x1000 ms boundary (same target id,
no other rule applicable): the rule does not fire. -/
theorem inferRelationship_rule7_boundary_witness :
    (inferRelationship bnd1 bnd2 = some RelType.FOLLOWS ↔
      (dateGetTime bnd2.time - dateGetTime bnd1.time < 5 * 60 * 1000 ∧
        bnd1.target.id = bnd2.target.id)) ∧
    inferRelationship bnd1 bnd2 = none :=
  ⟨inferRelationship_rule7_boundary bnd1 bnd2 (by decide) (by decide) (by decide)
      (by decide) (by decide) (by decide),
    by decide⟩

/-! ## Claim C10: mutually-absent correlation fields -/

/-- Claim C10: rules 1, 2 and 4 compare possibly-undefined fields with
`===`, so two mutually-absent fields count as equal and the rule fires;
rules 5 and 6 first require a truthy key on the earlier event, so with
absent trace and deployment ids the result is never RELATES_TO. -/
theorem inferRelationship_absent_fields
    (p1 p2 q1 q2 r1 r2 s1 s2 : NormalizedEvent)
    (hp1 : p1.kind = "PR_MERGED") (hp2 : p2.kind = "DEPLOYMENT")
    (hp3 : corrField p1 Correlation.commit_sha = none)
    (hp4 : corrField p2 Correlation.commit_sha = none)
    (hq1 : q1.kind = "DEPLOYMENT") (hq2 : q2.kind = "TRACE")
    (hq3 : corrField q1 Correlation.deployment_id = none)
    (hq4 : corrField q2 Correlation.deployment_id = none)
    (hr1 : strStartsWith r1.kind "PR_" = true) (hr2 : strStartsWith r2.kind "PR_" = true)
    (hr3 : corrField r1 Correlation.pr_number = none)
    (hr4 : corrField r2 Correlation.pr_number = none)
    (hs1 : corrField s1 Correlation.trace_id = none)
    (hs2 : corrField s1 Correlation.deployment_id = none) :
    inferRelationship p1 p2 = some RelType.CAUSES ∧
    inferRelationship q1 q2 = some RelType.TRIGGERS ∧
    inferRelationship r1 r2 = some RelType.FOLLOWS ∧
    inferRelationship s1 s2 ≠ some RelType.RELATES_TO := by
  refine ⟨?_, ?_, ?_, ?_⟩
  · have hc : rule1Cond p1 p2 := ⟨hp1, hp2, by rw [hp3, hp4]⟩
    unfold inferRelationship
    rw [if_pos hc]
  · have hn1 : ¬ rule1Cond q1 q2 := fun hc => absurd (hq1.symm.trans hc.1) (by decide)
    have hc : rule2Cond q1 q2 := ⟨hq1, hq2, by rw [hq3, hq4]⟩
    unfold inferRelationship
    rw [if_neg hn1, if_pos hc]
  · have hn1 : ¬ rule1Cond r1 r2 := by
      intro hc
      rw [hc.2.1] at hr2
      exact absurd hr2 (by decide)
    have hn2 : ¬ rule2Cond r1 r2 := by
      intro hc
      rw [hc.2.1] at hr2
      exact absurd hr2 (by decide)
    have hn3 : ¬ rule3Cond r1 r2 := by
      intro hc
      rw [hc.1] at hr1
      exact absurd hr1 (by decide)
    have hc : rule4Cond r1 r2 := ⟨hr1, hr2, by rw [hr3, hr4]⟩
    unfold inferRelationship
    rw [if_neg hn1, if_neg hn2, if_neg hn3, if_pos hc]
  · have hn5 : ¬ rule5Cond s1 s2 := by
      intro hc
      have ht := hc.1
      rw [hs1] at ht
      exact absurd ht (by decide)
    have hn6 : ¬ rule6Cond s1 s2 := by
      intro hc
      have ht := hc.1
      rw [hs2] at ht
      exact absurd ht (by decide)
    intro hcontra
    unfold inferRelationship at hcontra
    rw [if_neg hn5, if_neg hn6] at hcontra
    repeat' split at hcontra
    all_goals simp_all

/-- Witness for C10: concrete pairs with the relevant fields absent. -/
theorem inferRelationship_absent_fields_witness :
    inferRelationship evPRM evDEP = some RelType.CAUSES ∧
    inferRelationship evDEP evTRC = some RelType.TRIGGERS ∧
    inferRelationship evPRO evPRA = some RelType.FOLLOWS ∧
    inferRelationship evPlainA evPlainB ≠ some RelType.RELATES_TO :=
  inferRelationship_absent_fields evPRM evDEP evDEP evTRC evPRO evPRA evPlainA evPlainB
    (by decide) (by decide) (by decide) (by decide) (by decide) (by decide) (by decide)
    (by decide) (by decide) (by decide) (by decide) (by decide) (by decide) (by decide)

/-! ## Claim C7: the episode type classifier -/

theorem mem_of_mem_firstOccs {α : Type} (key : α → String) :
    ∀ (l : List α) (x : α), x ∈ firstOccs key l → x ∈ l
  | [], x, hx => by simp [firstOccs] at hx
  | a :: as, x, hx => by
    simp only [firstOccs] at hx
    rcases List.mem_cons.mp hx with rfl | hx2
    · exact List.mem_cons_self _ _
    · have hm := mem_of_mem_firstOccs key (as.filter (fun z => !(key z == key a))) x hx2
      exact List.mem_cons_of_mem a (List.mem_of_mem_filter hm)
  termination_by l => l.length
  decreasing_by
    simp only [List.length_cons]
    exact Nat.lt_succ_of_le (List.length_filter_le _ _)

theorem key_covered_firstOccs {α : Type} (key : α → String) :
    ∀ (l : List α) (x : α), x ∈ l → ∃ y ∈ firstOccs key l, key y = key x
  | [], x, hx => absurd hx (List.not_mem_nil x)
  | a :: as, x, hx => by
    simp only [firstOccs]
    by_cases hkey : (key x == key a) = true
    · exact ⟨a, List.mem_cons_self _ _, (eq_of_beq hkey).symm⟩
    · rcases List.mem_cons.mp hx with rfl | hx2
      · exact absurd (beq_self_eq_true (key x)) hkey
      · have hxf : x ∈ as.filter (fun z => !(key z == key a)) :=
          List.mem_filter.mpr ⟨hx2, by simp [hkey]⟩
        rcases key_covered_firstOccs key (as.filter (fun z => !(key z == key a))) x hxf with
          ⟨y, hy1, hy2⟩
        exact ⟨y, List.mem_cons_of_mem a hy1, hy2⟩
  termination_by l => l.length
  decreasing_by
    simp only [List.length_cons]
    exact Nat.lt_succ_of_le (List.length_filter_le _ _)

theorem mem_distinctKinds (events : List NormalizedEvent) (s : String) :
    s ∈ distinctKinds events ↔ s ∈ events.map (·.kind) := by
  constructor
  · exact mem_of_mem_firstOccs (fun s => s) _ s
  · intro h
    rcases key_covered_firstOccs (fun s => s) (events.map (·.kind)) s h with ⟨y, hy1, hy2⟩
    exact hy2 ▸ hy1

theorem kinds_contains_eq (events : List NormalizedEvent) (s : String) :
    (events.map (·.kind)).contains s = decide (s ∈ distinctKinds events) := by
  by_cases h : s ∈ events.map (·.kind)
  · have h2 : s ∈ distinctKinds events := (mem_distinctKinds events s).mpr h
    simp [h, h2]
  · have h2 : ¬ s ∈ distinctKinds events := fun hc => h ((mem_distinctKinds events s).mp hc)
    simp [h, h2]

/-- Claim C7: the classifier is the first match over the group's distinct
kinds in the fixed priority DEPLOYMENT, FEATURE_FLAG, ACCESS_GRANT or
ACCESS_REVOKE, INCIDENT, PR_MERGED, else CustomEpisode; in particular an
ACCESS_GRANT plus DEPLOYMENT group is a DeploymentEpisode. -/
theorem determineEpisodeType_priority :
    (∀ events, determineEpisodeType events = specClassify (distinctKinds events)) ∧
    determineEpisodeType [evGrant, evDepD] = EpisodeType.DeploymentEpisode := by
  constructor
  · intro events
    simp only [determineEpisodeType, specClassify, kinds_contains_eq, Bool.or_eq_true,
      decide_eq_true_eq]
  · decide

/-! ## Claim C8: the key extractor -/

theorem pushIf_eq_keyIfPresent (p : String) (v : Option String) :
    pushIf v (fun s => p ++ s) = keyIfPresent p v := by
  cases v with
  | none => rfl
  | some s =>
    by_cases h : s = ""
    · simp [pushIf, keyIfPresent, h]
    · simp [pushIf, keyIfPresent, h]

/-- Claim C8: the key extractor returns exactly the spec's ordered key
list (deployment, pr qualified by the source instance, commit, trace,
ticket, absent fields omitted) and is deterministic. -/
theorem getCorrelationKeys_spec :
    (∀ e, getCorrelationKeys e = specCorrelationKeys e) ∧
    (∀ e1 e2, e1 = e2 → getCorrelationKeys e1 = getCorrelationKeys e2) := by
  constructor
  · intro e
    unfold getCorrelationKeys specCorrelationKeys
    rw [pushIf_eq_keyIfPresent, pushIf_eq_keyIfPresent, pushIf_eq_keyIfPresent,
      pushIf_eq_keyIfPresent, pushIf_eq_keyIfPresent]
  · intro e1 e2 h
    rw [h]

/-- Witness for C8 at a concrete event. -/
theorem getCorrelationKeys_spec_witness :
    getCorrelationKeys evPR = specCorrelationKeys evPR ∧
    getCorrelationKeys evPR = getCorrelationKeys evPR :=
  ⟨getCorrelationKeys_spec.1 evPR, getCorrelationKeys_spec.2 evPR evPR rfl⟩

/-! ## Claim C9: characterizing the primary actor/target selection -/

theorem beqString_symm {a b : String} (h : (a == b) = true) : (b == a) = true := by
  rw [beq_iff_eq] at h ⊢
  exact h.symm

theorem beqString_symm_not {a b : String} (h : ¬ (a == b) = true) : ¬ (b == a) = true :=
  fun hc => h (beqString_symm hc)

theorem cntKey_cons {α : Type} (key : α → String) (x : α) (xs : List α) (s : String) :
    cntKey key (x :: xs) s = cntKey key xs s + if (key x == s) = true then 1 else 0 := by
  simp only [cntKey, List.filter_cons]
  split <;> simp

/-- The head of the stable descending-count sort is the first entry of
maximal count: highest count wins, earlier entry wins ties. -/
theorem head_insertionSort_countGE {α : Type} (m : List (α × Nat)) :
    (List.insertionSort countGE m).head? = pickMaxFirst m := by
  induction m with
  | nil => rfl
  | cons x xs ih =>
    simp only [List.insertionSort]
    cases h : List.insertionSort countGE xs with
    | nil =>
      have hp : pickMaxFirst xs = none := by rw [← ih, h]; rfl
      simp [List.orderedInsert, pickMaxFirst, hp]
    | cons y ys =>
      have hp : pickMaxFirst xs = some y := by rw [← ih, h]; rfl
      simp only [List.orderedInsert, pickMaxFirst, hp]
      by_cases hc : countGE x y
      · rw [if_pos hc]
        have hnl : ¬ x.2 < y.2 := not_lt.mpr hc
        rw [if_neg hnl]
        rfl
      · rw [if_neg hc]
        have hl : x.2 < y.2 := not_le.mp hc
        rw [if_pos hl]
        rfl

theorem maxSnd_cons {α : Type} (x : α × Nat) (xs : List (α × Nat)) :
    maxSnd (x :: xs) = max x.2 (maxSnd xs) := rfl

/-- Lemma: `pickMaxFirst` is `find?` for the maximal count, and any result
attains the maximal count. -/
theorem pickMaxFirst_spec {α : Type} (m : List (α × Nat)) :
    pickMaxFirst m = m.find? (fun p => p.2 == maxSnd m) ∧
      ∀ p, pickMaxFirst m = some p → p.2 = maxSnd m := by
  induction m with
  | nil =>
    refine ⟨rfl, ?_⟩
    intro p h
    simp [pickMaxFirst] at h
  | cons x xs ih =>
    obtain ⟨ih1, ih2⟩ := ih
    cases hp : pickMaxFirst xs with
    | none =>
      have hxs : xs = [] := by
        cases xs with
        | nil => rfl
        | cons y ys =>
          exfalso
          cases h2 : pickMaxFirst ys with
          | none => simp [pickMaxFirst, h2] at hp
          | some v =>
            simp only [pickMaxFirst, h2] at hp
            by_cases hv : y.2 < v.2
            · rw [if_pos hv] at hp
              cases hp
            · rw [if_neg hv] at hp
              cases hp
      subst hxs
      constructor
      · simp [pickMaxFirst, maxSnd, List.find?]
      · intro p h
        simp only [pickMaxFirst] at h
        cases h
        simp [maxSnd]
    | some y =>
      have hy2 : y.2 = maxSnd xs := ih2 y hp
      by_cases hlt : x.2 < y.2
      · have hmax : maxSnd (x :: xs) = maxSnd xs := by
          rw [maxSnd_cons]
          omega
        constructor
        · simp only [pickMaxFirst, hp, if_pos hlt]
          have hpx : (x.2 == maxSnd xs) = false := by
            rw [beq_eq_false_iff_ne]
            omega
          simp only [List.find?, hmax, hpx]
          rw [← ih1, hp]
        · intro p h
          simp only [pickMaxFirst, hp, if_pos hlt] at h
          cases h
          rw [hmax, ← hy2]
      · have hge : maxSnd xs ≤ x.2 := by omega
        have hmax : maxSnd (x :: xs) = x.2 := by
          rw [maxSnd_cons]
          omega
        constructor
        · simp only [pickMaxFirst, hp, if_neg hlt]
          have hpx : (x.2 == maxSnd (x :: xs)) = true := by
            rw [hmax]
            exact beq_self_eq_true _
          simp only [List.find?, hpx]
        · intro p h
          simp only [pickMaxFirst, hp, if_neg hlt] at h
          cases h
          rw [hmax]

theorem foldrMax_le {α : Type} (f : α → Nat) :
    ∀ (l : List α) (x : α), x ∈ l → f x ≤ (l.map f).foldr max 0
  | [], x, hx => absurd hx (List.not_mem_nil x)
  | a :: t, x, hx => by
    simp only [List.map_cons, List.foldr_cons]
    rcases List.mem_cons.mp hx with rfl | hx2
    · exact le_max_left _ _
    · exact le_trans (foldrMax_le f t x hx2) (le_max_right _ _)

theorem foldrMax_attained {α : Type} (f : α → Nat) :
    ∀ l : List α, (l.map f).foldr max 0 = 0 ∨ ∃ x ∈ l, f x = (l.map f).foldr max 0
  | [] => Or.inl rfl
  | a :: t => by
    simp only [List.map_cons, List.foldr_cons]
    rcases foldrMax_attained f t with h0 | ⟨x, hx, hfx⟩
    · rw [h0]
      exact Or.inr ⟨a, List.mem_cons_self _ _, (Nat.max_zero _).symm⟩
    · rcases le_total (f a) ((t.map f).foldr max 0) with hle | hle
      · refine Or.inr ⟨x, List.mem_cons_of_mem a hx, ?_⟩
        rw [hfx]
        omega
      · refine Or.inr ⟨a, List.mem_cons_self _ _, ?_⟩
        omega

theorem foldrMax_firstOccs {α : Type} (key : α → String) (f : String → Nat) (l : List α) :
    ((firstOccs key l).map (fun a => f (key a))).foldr max 0 =
      (l.map (fun a => f (key a))).foldr max 0 := by
  apply Nat.le_antisymm
  · rcases foldrMax_attained (fun a => f (key a)) (firstOccs key l) with h0 | ⟨x, hx, hfx⟩
    · omega
    · rw [← hfx]
      exact foldrMax_le (fun a => f (key a)) l x (mem_of_mem_firstOccs key l x hx)
  · rcases foldrMax_attained (fun a => f (key a)) l with h0 | ⟨x, hx, hfx⟩
    · omega
    · rcases key_covered_firstOccs key l x hx with ⟨y, hy, hky⟩
      rw [← hfx]
      have hxy : f (key x) = f (key y) := by rw [hky]
      rw [hxy]
      exact foldrMax_le (fun a => f (key a)) (firstOccs key l) y hy

theorem find?_filter_of_imp {α : Type} (p q : α → Bool)
    (himp : ∀ z, q z = false → p z = false) :
    ∀ l : List α, (l.filter q).find? p = l.find? p
  | [] => rfl
  | a :: t => by
    rw [List.filter_cons]
    by_cases hq : q a = true
    · rw [if_pos hq, List.find?_cons, List.find?_cons]
      cases hpa : p a with
      | true => rfl
      | false => exact find?_filter_of_imp p q himp t
    · have hq' : q a = false := by
        cases h : q a with
        | true => exact absurd h hq
        | false => rfl
      rw [if_neg hq, List.find?_cons]
      rw [himp a hq']
      exact find?_filter_of_imp p q himp t

theorem find?_firstOccs {α : Type} (key : α → String) (p : α → Bool)
    (hp : ∀ x y, key x = key y → p x = p y) :
    ∀ l : List α, (firstOccs key l).find? p = l.find? p
  | [] => by simp [firstOccs]
  | a :: as => by
    simp only [firstOccs]
    rw [List.find?_cons, List.find?_cons]
    cases hpa : p a with
    | true => rfl
    | false =>
      rw [find?_firstOccs key p hp (as.filter fun z => !(key z == key a))]
      apply find?_filter_of_imp
      intro z hz
      have hzk : (key z == key a) = true := by
        cases h : (key z == key a) with
        | true => rfl
        | false => simp [h] at hz
      rw [hp z a (eq_of_beq hzk), hpa]
  termination_by l => l.length
  decreasing_by
    simp only [List.length_cons]
    exact Nat.lt_succ_of_le (List.length_filter_le _ _)

theorem beqString_comm (a b : String) : (a == b) = (b == a) := by
  by_cases h : a = b
  · rw [h]
  · have h1 : (a == b) = false := beq_eq_false_iff_ne.mpr h
    have h2 : (b == a) = false := beq_eq_false_iff_ne.mpr (fun hh => h hh.symm)
    rw [h1, h2]

theorem bumpCount_mem_case {α : Type} (key : α → String) (acc : List (α × Nat)) (x : α)
    (h : acc.any (fun p => key p.1 == key x) = true) :
    bumpCount key acc x = acc.map (fun p => if key p.1 == key x then (p.1, p.2 + 1) else p) := by
  unfold bumpCount
  rw [if_pos h]

theorem bumpCount_new_case {α : Type} (key : α → String) (acc : List (α × Nat)) (x : α)
    (h : acc.any (fun p => key p.1 == key x) = false) :
    bumpCount key acc x = acc ++ [(x, 1)] := by
  unfold bumpCount
  rw [if_neg (by rw [h]; simp)]

theorem bump_any_map {α : Type} (key : α → String) (acc : List (α × Nat)) (x z : α) :
    (acc.map (fun p => if key p.1 == key x then (p.1, p.2 + 1) else p)).any
      (fun p => key p.1 == key z) = acc.any (fun p => key p.1 == key z) := by
  induction acc with
  | nil => rfl
  | cons a t ih =>
    simp only [List.map_cons, List.any_cons]
    rw [ih]
    by_cases hk : (key a.1 == key x) = true
    · rw [if_pos hk]
    · rw [if_neg hk]

/-- Closed form of the counting loop's fold, for an arbitrary
accumulator. -/
theorem foldl_bumpCount {α : Type} (key : α → String) :
    ∀ (l : List α) (acc : List (α × Nat)),
      l.foldl (bumpCount key) acc = addCountsFrom key l acc ++ canonCounts key (newOf key acc l)
  | [], acc => by
    simp [addCountsFrom, newOf, canonCounts, cntKey]
  | x :: xs, acc => by
    rw [List.foldl_cons, foldl_bumpCount key xs (bumpCount key acc x)]
    by_cases hmem : acc.any (fun p => key p.1 == key x) = true
    · rw [bumpCount_mem_case key acc x hmem]
      have hA1 : addCountsFrom key xs
          (acc.map (fun p => if key p.1 == key x then (p.1, p.2 + 1) else p))
          = addCountsFrom key (x :: xs) acc := by
        unfold addCountsFrom
        rw [List.map_map]
        apply List.map_congr_left
        intro p hp
        by_cases hk : (key p.1 == key x) = true
        · simp only [Function.comp_apply, if_pos hk, cntKey_cons, if_pos (beqString_symm hk)]
          simp [Prod.ext_iff]
          omega
        · simp only [Function.comp_apply, if_neg hk, cntKey_cons, if_neg (beqString_symm_not hk)]
          simp
      have hA2 : newOf key
          (acc.map (fun p => if key p.1 == key x then (p.1, p.2 + 1) else p)) xs
          = newOf key acc xs := by
        unfold newOf
        apply List.filter_congr
        intro z hz
        rw [bump_any_map key acc x z]
      have hA3 : newOf key acc (x :: xs) = newOf key acc xs := by
        unfold newOf
        rw [List.filter_cons]
        simp [hmem]
      rw [hA1, hA2, hA3]
    · have hmem' : acc.any (fun p => key p.1 == key x) = false := by
        cases h : acc.any (fun p => key p.1 == key x) with
        | true => exact absurd h hmem
        | false => rfl
      rw [bumpCount_new_case key acc x hmem']
      have hnotin : ∀ p ∈ acc, (key p.1 == key x) = false := by
        intro p hp
        have hnp := List.any_eq_false.mp hmem' p hp
        cases h : (key p.1 == key x) with
        | true => exact absurd h hnp
        | false => rfl
      have hB1 : addCountsFrom key xs (acc ++ [(x, 1)])
          = addCountsFrom key xs acc ++ [(x, 1 + cntKey key xs (key x))] := by
        unfold addCountsFrom
        rw [List.map_append]
        rfl
      have hB2 : newOf key (acc ++ [(x, 1)]) xs
          = (newOf key acc xs).filter (fun z => !(key z == key x)) := by
        unfold newOf
        rw [List.filter_filter]
        apply List.filter_congr
        intro z hz
        simp only [List.any_append, List.any_cons, List.any_nil, Bool.or_false, Bool.not_or]
        rw [beqString_comm (key x) (key z), Bool.and_comm]
      have hT1 : addCountsFrom key (x :: xs) acc = addCountsFrom key xs acc := by
        unfold addCountsFrom
        apply List.map_congr_left
        intro p hp
        rw [cntKey_cons]
        have hxp : (key x == key p.1) = false := by
          rw [beqString_comm]
          exact hnotin p hp
        rw [hxp]
        simp
      have hT2 : newOf key acc (x :: xs) = x :: newOf key acc xs := by
        unfold newOf
        rw [List.filter_cons]
        simp [hmem']
      rw [hB1, hB2, hT1, hT2]
      simp only [canonCounts]
      have hB3 : ((newOf key acc xs).filter (fun z => key z == key x)).length
          = cntKey key xs (key x) := by
        unfold newOf cntKey
        rw [List.filter_filter]
        congr 1
        apply List.filter_congr
        intro z hz
        by_cases hzx : (key z == key x) = true
        · have heq : key z = key x := eq_of_beq hzx
          have hany : acc.any (fun p => key p.1 == key z) = false := by
            have hfe : (fun p : α × Nat => key p.1 == key z)
                = (fun p => key p.1 == key x) := by
              funext p
              rw [heq]
            rw [hfe]
            exact hmem'
          rw [hzx, hany]
          simp
        · have hzx' : (key z == key x) = false := by
            cases h : (key z == key x) with
            | true => exact absurd h hzx
            | false => rfl
          rw [hzx']
          simp
      rw [hB3]
      have hc : 1 + cntKey key xs (key x) = cntKey key xs (key x) + 1 := Nat.add_comm 1 _
      rw [hc, List.append_assoc, List.singleton_append]

theorem countsBy_eq_canon {α : Type} (key : α → String) (l : List α) :
    countsBy key l = canonCounts key l := by
  unfold countsBy
  rw [foldl_bumpCount key l []]
  simp [addCountsFrom, newOf]

theorem canonCounts_eq_map_firstOccs {α : Type} (key : α → String) :
    ∀ l : List α,
      canonCounts key l = (firstOccs key l).map (fun a => (a, cntKey key l (key a)))
  | [] => by simp [canonCounts, firstOccs]
  | a :: as => by
    simp only [canonCounts, firstOccs, List.map_cons]
    congr 1
    · simp [cntKey_cons, cntKey, beq_self_eq_true]
    · rw [canonCounts_eq_map_firstOccs key (as.filter fun z => !(key z == key a))]
      apply List.map_congr_left
      intro b hb
      have hbmem : b ∈ as.filter (fun z => !(key z == key a)) :=
        mem_of_mem_firstOccs key _ b hb
      have hbk : (key b == key a) = false := by
        have hfb := (List.mem_filter.mp hbmem).2
        cases h : (key b == key a) with
        | true => rw [h] at hfb; exact absurd hfb (by decide)
        | false => rfl
      have hak : (key a == key b) = false := by
        rw [beqString_comm]
        exact hbk
      rw [cntKey_cons, hak]
      simp only [Bool.false_eq_true, if_false, Nat.add_zero]
      unfold cntKey
      rw [List.filter_filter]
      congr 1
      apply congrArg List.length
      apply List.filter_congr
      intro z hz
      by_cases hzb : (key z == key b) = true
      · have hza : (key z == key a) = false := by
          rw [eq_of_beq hzb]
          exact hbk
        rw [hzb, hza]
        simp
      · have hzb' : (key z == key b) = false := by
          cases h : (key z == key b) with
          | true => exact absurd h hzb
          | false => rfl
        rw [hzb']
        simp
  termination_by l => l.length
  decreasing_by
    simp only [List.length_cons]
    exact Nat.lt_succ_of_le (List.length_filter_le _ _)

/-- The whole selection pipeline `sort-by-descending-count |> head |>
object`: first element of `l` whose key count is maximal. -/
theorem pickPrimary_spec {α : Type} (key : α → String) (l : List α) :
    pickPrimary key l =
      l.find? (fun a =>
        cntKey key l (key a) == (l.map (fun b => cntKey key l (key b))).foldr max 0) := by
  unfold pickPrimary
  rw [head_insertionSort_countGE, countsBy_eq_canon key l, canonCounts_eq_map_firstOccs key l,
    (pickMaxFirst_spec _).1, List.find?_map, Option.map_map]
  have hM : maxSnd ((firstOccs key l).map (fun a => (a, cntKey key l (key a))))
      = (l.map (fun b => cntKey key l (key b))).foldr max 0 := by
    unfold maxSnd
    rw [List.map_map]
    have hcomp : ((fun p : α × Nat => p.2) ∘ (fun a => (a, cntKey key l (key a))))
        = fun a => cntKey key l (key a) := rfl
    rw [hcomp]
    exact foldrMax_firstOccs key (fun s => cntKey key l s) l
  have hcomp1 : ((fun p : α × Nat =>
        p.2 == maxSnd ((firstOccs key l).map (fun a => (a, cntKey key l (key a)))))
        ∘ (fun a => (a, cntKey key l (key a))))
      = fun a => cntKey key l (key a)
          == maxSnd ((firstOccs key l).map (fun a => (a, cntKey key l (key a)))) := rfl
  rw [hcomp1, hM]
  have hcomp2 : ((fun p : α × Nat => p.1) ∘ (fun a => (a, cntKey key l (key a))))
      = fun a => a := rfl
  rw [hcomp2]
  rw [find?_firstOccs key _ (fun x y hxy => by rw [hxy]) l]
  have hid : Option.map (fun a : α => a)
      (l.find? fun a => cntKey key l (key a) == (l.map fun b => cntKey key l (key b)).foldr max 0)
      = l.find? fun a => cntKey key l (key a) == (l.map fun b => cntKey key l (key b)).foldr max 0 := by
    cases l.find? fun a =>
        cntKey key l (key a) == (l.map fun b => cntKey key l (key b)).foldr max 0 <;> rfl
  rw [hid]

/-- Lemma: `pickPrimary` applied to a projected list, phrased over the events
themselves. -/
theorem pickPrimary_map_spec {β : Type} (proj : NormalizedEvent → β) (bid : β → String)
    (events : List NormalizedEvent) :
    pickPrimary bid (events.map proj) =
      (events.find? (fun e =>
        (events.filter (fun e2 => bid (proj e2) == bid (proj e))).length ==
          (events.map (fun e2 =>
            (events.filter (fun e3 => bid (proj e3) == bid (proj e2))).length)).foldr max 0)).map
        proj := by
  rw [pickPrimary_spec]
  have hcnt : ∀ s, cntKey bid (events.map proj) s
      = (events.filter (fun e => bid (proj e) == s)).length := by
    intro s
    unfold cntKey
    rw [List.filter_map, List.length_map]
    rfl
  rw [List.find?_map]
  congr 1
  apply congrArg (fun p => List.find? p events)
  funext e
  simp only [Function.comp_apply, hcnt, List.map_map]
  rfl

/-- Claim C9: for a non-empty group, `primary_actor` is the actor whose
id has the highest occurrence count across the group's events, ties
broken to the id first encountered in the given order, the stored object
being the first-encountered actor with that id; `primary_target` is
computed identically over target ids. -/
theorem createEpisode_primary_spec (eid : String) (t : EpisodeType)
    (events : List NormalizedEvent) (hne : events ≠ []) :
    (createEpisode eid events t).primary_actor = specPrimaryActor events ∧
    (createEpisode eid events t).primary_target = specPrimaryTarget events := by
  constructor
  · rw [createEpisode_primaryActor, pickPrimary_map_spec (·.actor) Actor.id events]
    rfl
  · rw [createEpisode_primaryTarget, pickPrimary_map_spec (·.target) Target.id events]
    rfl

/-- Witness for C9 at a concrete two-event group. -/
theorem createEpisode_primary_spec_witness :
    (createEpisode "w" [evPR, evDep] EpisodeType.CustomEpisode).primary_actor =
      specPrimaryActor [evPR, evDep] ∧
    (createEpisode "w" [evPR, evDep] EpisodeType.CustomEpisode).primary_target =
      specPrimaryTarget [evPR, evDep] :=
  createEpisode_primary_spec "w" EpisodeType.CustomEpisode [evPR, evDep] (by decide)

/-! ## Claim C5: the final groups partition the batch -/

theorem bool_eq_of_iff {a b : Bool} (h : a = true ↔ b = true) : a = b := by
  cases a <;> cases b <;> simp_all

theorem contains_eq_decide_mem_str (l : List String) (a : String) :
    l.contains a = decide (a ∈ l) := by
  by_cases h : a ∈ l <;> simp [h]

theorem addToGroup_keys {gs : EventGroups} {gk : String} {e : NormalizedEvent}
    (hmem : gs.any (fun g => g.1 == gk) = true) :
    (addToGroup gs gk e).map (·.1) = gs.map (·.1) := by
  unfold addToGroup
  rw [if_pos hmem, List.map_map]
  apply List.map_congr_left
  intro g hg
  by_cases hk : (g.1 == gk) = true
  · simp only [Function.comp_apply, if_pos hk]
  · simp only [Function.comp_apply, if_neg hk]

theorem addToGroup_keys_nodup {gs : EventGroups} (gk : String) (e : NormalizedEvent)
    (h : (gs.map (·.1)).Nodup) : ((addToGroup gs gk e).map (·.1)).Nodup := by
  by_cases hmem : gs.any (fun g => g.1 == gk) = true
  · rw [addToGroup_keys hmem]
    exact h
  · have hmem' : gs.any (fun g => g.1 == gk) = false := by
      cases hh : gs.any (fun g => g.1 == gk) with
      | true => exact absurd hh hmem
      | false => rfl
    unfold addToGroup
    rw [if_neg (by rw [hmem']; simp), List.map_append]
    simp only [List.map_cons, List.map_nil]
    rw [List.nodup_append]
    refine ⟨h, List.nodup_singleton _, ?_⟩
    intro k hk
    have hall := List.any_eq_false.mp hmem'
    simp only [List.mem_singleton]
    intro hkgk
    rcases List.mem_map.mp hk with ⟨g, hg, rfl⟩
    exact hall g hg (by rw [hkgk]; exact beq_self_eq_true gk)

theorem mapBump_flatten (gk : String) (e : NormalizedEvent) :
    ∀ gs : EventGroups, (gs.map (·.1)).Nodup → gs.any (fun g => g.1 == gk) = true →
      (((gs.map (fun g => if g.1 == gk then (g.1, g.2 ++ [e]) else g)).map (·.2)).flatten).Perm
        (((gs.map (·.2)).flatten) ++ [e])
  | [], _, hmem => by simp at hmem
  | g :: t, hnd, hmem => by
    simp only [List.map_cons, List.nodup_cons] at hnd
    obtain ⟨hx, ht⟩ := hnd
    by_cases hk : (g.1 == gk) = true
    · simp only [List.map_cons, if_pos hk]
      have htid : t.map (fun g2 => if g2.1 == gk then (g2.1, g2.2 ++ [e]) else g2) = t := by
        have hpt : ∀ g2 ∈ t, (if g2.1 == gk then (g2.1, g2.2 ++ [e]) else g2) = g2 := by
          intro g2 hg2
          have hne : (g2.1 == gk) = false := by
            cases hh : (g2.1 == gk) with
            | false => rfl
            | true =>
              exfalso
              apply hx
              have hmm : g2.1 ∈ t.map (·.1) := List.mem_map_of_mem _ hg2
              rw [eq_of_beq hh] at hmm
              rw [eq_of_beq hk]
              exact hmm
          rw [hne]
          simp
        rw [List.map_congr_left hpt, List.map_id']
      rw [htid]
      simp only [List.map_cons, List.flatten_cons]
      rw [List.append_assoc, List.append_assoc]
      exact List.Perm.append_left g.2 List.perm_append_comm
    · simp only [List.map_cons, if_neg hk]
      have hmem' : t.any (fun g2 => g2.1 == gk) = true := by
        simp only [List.any_cons, hk] at hmem
        simpa using hmem
      have ih := mapBump_flatten gk e t ht hmem'
      simp only [List.map_cons, List.flatten_cons]
      rw [List.append_assoc]
      exact List.Perm.append_left g.2 ih

theorem addToGroup_flatten (gs : EventGroups) (gk : String) (e : NormalizedEvent)
    (h : (gs.map (·.1)).Nodup) :
    (((addToGroup gs gk e).map (·.2)).flatten).Perm (((gs.map (·.2)).flatten) ++ [e]) := by
  by_cases hmem : gs.any (fun g => g.1 == gk) = true
  · unfold addToGroup
    rw [if_pos hmem]
    exact mapBump_flatten gk e gs h hmem
  · have hmem' : gs.any (fun g => g.1 == gk) = false := by
      cases hh : gs.any (fun g => g.1 == gk) with
      | true => exact absurd hh hmem
      | false => rfl
    unfold addToGroup
    rw [if_neg (by rw [hmem']; simp)]
    simp only [List.map_append, List.flatten_append, List.map_cons, List.map_nil,
      List.flatten_cons, List.flatten_nil, List.append_nil]
    exact List.Perm.refl _

theorem seedFold_inv :
    ∀ (events : List NormalizedEvent) (acc : EventGroups), (acc.map (·.1)).Nodup →
      (((events.foldl (fun gs e => addToGroup gs (seedChoice gs e) e) acc).map (·.1)).Nodup ∧
        (((events.foldl (fun gs e =>
            addToGroup gs (seedChoice gs e) e) acc).map (·.2)).flatten).Perm
          (((acc.map (·.2)).flatten) ++ events))
  | [], acc, h => ⟨h, by simp⟩
  | e :: evs, acc, h => by
    rw [List.foldl_cons]
    have hnd2 := addToGroup_keys_nodup (seedChoice acc e) e h
    obtain ⟨ih1, ih2⟩ := seedFold_inv evs (addToGroup acc (seedChoice acc e) e) hnd2
    refine ⟨ih1, ?_⟩
    have heq : (((acc.map (·.2)).flatten) ++ [e]) ++ evs
        = ((acc.map (·.2)).flatten) ++ (e :: evs) := by
      rw [List.append_assoc, List.singleton_append]
    exact ih2.trans (((addToGroup_flatten acc _ e h).append_right evs).trans
      (heq ▸ List.Perm.refl _))

theorem seedGroups_inv (events : List NormalizedEvent) :
    ((seedGroups events).map (·.1)).Nodup ∧
      (((seedGroups events).map (·.2)).flatten).Perm events := by
  have h := seedFold_inv events [] (by simp)
  simpa using h

theorem nodup_keys_inj {δ : Type} {l : List (String × δ)} (hnd : (l.map (·.1)).Nodup) :
    ∀ a ∈ l, ∀ b ∈ l, a.1 = b.1 → a = b := by
  induction l with
  | nil => intro a ha; cases ha
  | cons x t ih =>
    simp only [List.map_cons, List.nodup_cons] at hnd
    obtain ⟨hx, ht⟩ := hnd
    intro a ha b hb hab
    rcases List.mem_cons.mp ha with rfl | ha2 <;> rcases List.mem_cons.mp hb with rfl | hb2
    · rfl
    · exfalso
      have hmm : b.1 ∈ t.map (·.1) := List.mem_map_of_mem _ hb2
      rw [← hab] at hmm
      exact hx hmm
    · exfalso
      have hmm : a.1 ∈ t.map (·.1) := List.mem_map_of_mem _ ha2
      rw [hab] at hmm
      exact hx hmm
    · exact ih ht a ha2 b hb2 hab

theorem filter_key_singleton {δ : Type} :
    ∀ {l : List (String × δ)}, ((l.map (·.1)).Nodup) → ∀ {g : String × δ}, g ∈ l →
      l.filter (fun x => x.1 == g.1) = [g] := by
  intro l
  induction l with
  | nil => intro _ g hg; cases hg
  | cons x t ih =>
    intro hnd g hg
    simp only [List.map_cons, List.nodup_cons] at hnd
    obtain ⟨hx, ht⟩ := hnd
    rcases List.mem_cons.mp hg with rfl | hg2
    · rw [List.filter_cons, if_pos (beq_self_eq_true g.1)]
      have hnil : t.filter (fun x => x.1 == g.1) = [] := by
        apply List.filter_eq_nil_iff.mpr
        intro a ha hcon
        have hmm : a.1 ∈ t.map (·.1) := List.mem_map_of_mem _ ha
        rw [eq_of_beq hcon] at hmm
        exact hx hmm
      rw [hnil]
    · have hne : (x.1 == g.1) = false := by
        cases hh : (x.1 == g.1) with
        | false => rfl
        | true =>
          exfalso
          have hmm : g.1 ∈ t.map (·.1) := List.mem_map_of_mem _ hg2
          rw [← eq_of_beq hh] at hmm
          exact hx hmm
      rw [List.filter_cons, hne]
      simp only [Bool.false_eq_true, if_false]
      exact ih ht hg2

theorem perm_filter_or {γ : Type} (P Q : γ → Bool) :
    ∀ l : List γ, (∀ x ∈ l, ¬(P x = true ∧ Q x = true)) →
      (l.filter (fun x => P x || Q x)).Perm (l.filter P ++ l.filter Q)
  | [], _ => by simp
  | x :: t, hdisj => by
    have ht := perm_filter_or P Q t (fun y hy => hdisj y (List.mem_cons_of_mem x hy))
    rw [List.filter_cons, List.filter_cons, List.filter_cons]
    cases hP : P x with
    | true =>
      have hQ : Q x = false := by
        cases hq : Q x with
        | true => exact absurd ⟨hP, hq⟩ (hdisj x (List.mem_cons_self x t))
        | false => rfl
      simp only [hP, hQ, Bool.true_or, if_true]
      rw [List.cons_append]
      exact ht.cons x
    | false =>
      cases hQ : Q x with
      | true =>
        simp only [hP, hQ, Bool.false_or, if_true]
        exact (ht.cons x).trans List.perm_middle.symm
      | false =>
        simp only [hP, hQ, Bool.false_or, Bool.false_eq_true, if_false]
        exact ht

theorem mergeStep_processed (groups : EventGroups) (m : EventGroups) (pr : List String)
    (g : String × List NormalizedEvent) (h : pr.contains g.1 = true) :
    mergeStep groups (m, pr) g = (m, pr) := by
  simp only [mergeStep]
  rw [if_pos h]

theorem mergeStep_new (groups : EventGroups) (m : EventGroups) (pr : List String)
    (g : String × List NormalizedEvent) (h : ¬ pr.contains g.1 = true) :
    mergeStep groups (m, pr) g =
      (m ++ [(g.1, sortEventsByTime (g.2 ++
          (((groups.filter fun og =>
            !(og.1 == g.1) && !(pr.contains og.1) && groupsAreRelated g.2 og.2).map
              (·.2)).flatten)))],
        pr ++ g.1 :: ((groups.filter fun og =>
            !(og.1 == g.1) && !(pr.contains og.1) && groupsAreRelated g.2 og.2).map (·.1))) := by
  simp only [mergeStep]
  rw [if_neg h]

/-- Merging one unprocessed group re-establishes the merge invariant:
the new merged entry holds exactly the events of the current group plus
its related unprocessed groups, which is what the enlarged processed set
selects from `groups`. -/
theorem mergeStep_perm (groups : EventGroups) (hnd : (groups.map (·.1)).Nodup)
    (g : String × List NormalizedEvent) (hgin : g ∈ groups) (m : EventGroups)
    (pr : List String) (hproc : ¬ pr.contains g.1 = true)
    (hperm : ((m.map (·.2)).flatten).Perm
      (((groups.filter (fun g2 => pr.contains g2.1)).map (·.2)).flatten)) :
    (((m ++ [(g.1, sortEventsByTime (g.2 ++
        (((groups.filter fun og =>
          !(og.1 == g.1) && !(pr.contains og.1) && groupsAreRelated g.2 og.2).map
            (·.2)).flatten)))]).map (·.2)).flatten).Perm
      (((groups.filter (fun g2 => (pr ++ g.1 :: ((groups.filter fun og =>
        !(og.1 == g.1) && !(pr.contains og.1) && groupsAreRelated g.2 og.2).map
          (·.1))).contains g2.1)).map (·.2)).flatten) := by
  set C : (String × List NormalizedEvent) → Bool := fun og =>
    !(og.1 == g.1) && !(pr.contains og.1) && groupsAreRelated g.2 og.2 with hC
  set others : EventGroups := groups.filter C with hoth
  set othKeys : List String := others.map (·.1) with hok
  have hcontains : ∀ k : String, ((pr ++ g.1 :: othKeys).contains k)
      = (pr.contains k || ((k == g.1) || othKeys.contains k)) := by
    intro k
    apply bool_eq_of_iff
    simp [contains_eq_decide_mem_str, List.mem_append, List.mem_cons, beq_iff_eq]
  have hmemoth : ∀ k : String, othKeys.contains k = true →
      ∃ og ∈ others, og.1 = k := by
    intro k hk
    have hk2 : k ∈ othKeys := by simpa [contains_eq_decide_mem_str] using hk
    rcases List.mem_map.mp hk2 with ⟨og, hogin, hogk⟩
    exact ⟨og, hogin, hogk⟩
  have hD1 : ∀ g2 ∈ groups,
      ¬(pr.contains g2.1 = true ∧ ((g2.1 == g.1) || othKeys.contains g2.1) = true) := by
    rintro g2 _ ⟨hpr2, hor⟩
    rcases (Bool.or_eq_true _ _).mp hor with heq | hok2
    · rw [eq_of_beq heq] at hpr2
      exact hproc hpr2
    · rcases hmemoth g2.1 hok2 with ⟨og, hogin, hogk⟩
      have hogC := (List.mem_filter.mp hogin).2
      rw [hC] at hogC
      simp only [Bool.and_eq_true] at hogC
      obtain ⟨⟨_, hprog⟩, _⟩ := hogC
      simp only [Bool.not_eq_true'] at hprog
      rw [hogk] at hprog
      rw [hprog] at hpr2
      cases hpr2
  have hD2 : ∀ g2 ∈ groups,
      ¬((g2.1 == g.1) = true ∧ othKeys.contains g2.1 = true) := by
    rintro g2 _ ⟨heq, hok2⟩
    rcases hmemoth g2.1 hok2 with ⟨og, hogin, hogk⟩
    have hogC := (List.mem_filter.mp hogin).2
    rw [hC] at hogC
    simp only [Bool.and_eq_true] at hogC
    obtain ⟨⟨hogne, _⟩, _⟩ := hogC
    simp only [Bool.not_eq_true'] at hogne
    rw [hogk, eq_of_beq heq] at hogne
    rw [beq_self_eq_true] at hogne
    cases hogne
  have hfe : groups.filter (fun g2 => (pr ++ g.1 :: othKeys).contains g2.1)
      = groups.filter (fun g2 => pr.contains g2.1 || ((g2.1 == g.1) || othKeys.contains g2.1)) :=
    List.filter_congr (fun g2 _ => hcontains g2.1)
  have hsplit1 := perm_filter_or (fun g2 => pr.contains g2.1)
    (fun g2 => (g2.1 == g.1) || othKeys.contains g2.1) groups hD1
  have hsplit2 := perm_filter_or (fun g2 => g2.1 == g.1)
    (fun g2 => othKeys.contains g2.1) groups hD2
  have hsingle : groups.filter (fun g2 => g2.1 == g.1) = [g] := filter_key_singleton hnd hgin
  have hQ : groups.filter (fun g2 => othKeys.contains g2.1) = others := by
    rw [hoth]
    apply List.filter_congr
    intro g2 hg2
    apply bool_eq_of_iff
    constructor
    · intro hcon
      rcases hmemoth g2.1 hcon with ⟨og, hogin, hogk⟩
      have hogG : og ∈ groups := List.mem_of_mem_filter hogin
      have hogC : C og = true := (List.mem_filter.mp hogin).2
      have heqog : og = g2 := nodup_keys_inj hnd og hogG g2 hg2 hogk
      rw [← heqog]
      exact hogC
    · intro hc
      have hin : g2 ∈ others := by
        rw [hoth]
        exact List.mem_filter.mpr ⟨hg2, hc⟩
      have : g2.1 ∈ othKeys := by
        rw [hok]
        exact List.mem_map_of_mem _ hin
      simpa [contains_eq_decide_mem_str] using this
  -- left side: split off the new entry and undo the sort
  have hL : (((m ++ [(g.1, sortEventsByTime (g.2 ++ ((others.map (·.2)).flatten)))]).map
        (·.2)).flatten).Perm
      ((((groups.filter (fun g2 => pr.contains g2.1)).map (·.2)).flatten)
        ++ (g.2 ++ ((others.map (·.2)).flatten))) := by
    rw [List.map_append, List.flatten_append]
    simp only [List.map_cons, List.map_nil, List.flatten_cons, List.flatten_nil,
      List.append_nil]
    exact List.Perm.append hperm (List.perm_insertionSort _ _)
  -- right side: split the filter into processed ++ [g] ++ others
  have hR : ((groups.filter (fun g2 => (pr ++ g.1 :: othKeys).contains g2.1)).Perm
      ((groups.filter (fun g2 => pr.contains g2.1)) ++ ([g] ++ others))) := by
    rw [hfe]
    refine hsplit1.trans ?_
    apply List.Perm.append_left
    rw [← hsingle, ← hQ]
    exact hsplit2
  have hR2 : (((groups.filter (fun g2 => (pr ++ g.1 :: othKeys).contains g2.1)).map
        (·.2)).flatten).Perm
      ((((groups.filter (fun g2 => pr.contains g2.1)).map (·.2)).flatten)
        ++ (g.2 ++ ((others.map (·.2)).flatten))) := by
    refine (hR.map (·.2)).flatten.trans ?_
    rw [List.map_append, List.flatten_append, List.map_append, List.flatten_append]
    simp only [List.map_cons, List.map_nil, List.flatten_cons, List.flatten_nil,
      List.append_nil]
    exact List.Perm.refl _
  exact hL.trans hR2.symm

/-- Invariant of the merge pass: the merged map's events are (a
permutation of) the events of the processed groups, every visited group
key ends up processed, and the processed set only grows. -/
theorem mergeFold_inv (groups : EventGroups) (hnd : (groups.map (·.1)).Nodup) :
    ∀ (rest : EventGroups) (m : EventGroups) (pr : List String),
      (∀ g ∈ rest, g ∈ groups) →
      ((m.map (·.2)).flatten).Perm
        (((groups.filter (fun g => pr.contains g.1)).map (·.2)).flatten) →
      ((((rest.foldl (mergeStep groups) (m, pr)).1.map (·.2)).flatten).Perm
        (((groups.filter (fun g =>
          (rest.foldl (mergeStep groups) (m, pr)).2.contains g.1)).map (·.2)).flatten)) ∧
      (∀ g ∈ rest, g.1 ∈ (rest.foldl (mergeStep groups) (m, pr)).2) ∧
      (∀ k ∈ pr, k ∈ (rest.foldl (mergeStep groups) (m, pr)).2)
  | [], m, pr, _, hperm =>
    ⟨hperm, fun g hg => absurd hg (List.not_mem_nil g), fun _ hk => hk⟩
  | g :: rest, m, pr, hsub, hperm => by
    rw [List.foldl_cons]
    by_cases hproc : pr.contains g.1 = true
    · rw [mergeStep_processed groups m pr g hproc]
      obtain ⟨h1, h2, h3⟩ := mergeFold_inv groups hnd rest m pr
        (fun g2 hg2 => hsub g2 (List.mem_cons_of_mem g hg2)) hperm
      refine ⟨h1, ?_, h3⟩
      intro g2 hg2
      rcases List.mem_cons.mp hg2 with rfl | hg3
      · exact h3 g2.1 (by simpa [contains_eq_decide_mem_str] using hproc)
      · exact h2 g2 hg3
    · rw [mergeStep_new groups m pr g hproc]
      have hgin : g ∈ groups := hsub g (List.mem_cons_self g rest)
      have hperm2 := mergeStep_perm groups hnd g hgin m pr hproc hperm
      obtain ⟨h1, h2, h3⟩ := mergeFold_inv groups hnd rest _ _
        (fun g2 hg2 => hsub g2 (List.mem_cons_of_mem g hg2)) hperm2
      refine ⟨h1, ?_, ?_⟩
      · intro g2 hg2
        rcases List.mem_cons.mp hg2 with rfl | hg3
        · apply h3
          simp
        · exact h2 g2 hg3
      · intro k hk
        apply h3
        simp [hk]

/-- The final groups of `groupEvents` hold, between them, exactly the
events of the batch. -/
theorem groupEvents_flatten (events : List NormalizedEvent) :
    (((groupEvents events).map (·.2)).flatten).Perm events := by
  obtain ⟨hnd, hperm⟩ := seedGroups_inv events
  unfold groupEvents mergeRelatedGroups
  obtain ⟨h1, h2, _⟩ := mergeFold_inv (seedGroups events) hnd (seedGroups events) [] []
    (fun _ hg => hg) (by simp)
  have hall : (seedGroups events).filter (fun g =>
      ((seedGroups events).foldl (mergeStep (seedGroups events)) ([], [])).2.contains g.1)
      = seedGroups events := by
    apply List.filter_eq_self.mpr
    intro g hg
    have hmem := h2 g hg
    simpa [contains_eq_decide_mem_str] using hmem
  rw [hall] at h1
  exact h1.trans hperm

theorem correlateFrom_mem :
    ∀ (gs : EventGroups) (i : Nat) (ep : Episode), ep ∈ correlateFrom i gs →
      ∃ j g, g ∈ gs ∧ ep = createEpisode (episodeId j) g.2 (determineEpisodeType g.2)
  | [], _, ep, h => absurd h (List.not_mem_nil ep)
  | g :: rest, i, ep, h => by
    rcases List.mem_cons.mp h with rfl | h2
    · exact ⟨i, g, List.mem_cons_self g rest, rfl⟩
    · rcases correlateFrom_mem rest (i + 1) ep h2 with ⟨j, g2, hg2, heq⟩
      exact ⟨j, g2, List.mem_cons_of_mem g hg2, heq⟩

theorem pairEdges_mem :
    ∀ (l : List NormalizedEvent) (ed : EpisodeEdge), ed ∈ pairEdges l →
      ed.fromId ∈ l.map (·.id) ∧ ed.toId ∈ l.map (·.id)
  | [], ed, h => absurd h (List.not_mem_nil ed)
  | e :: rest, ed, h => by
    rw [List.map_cons]
    simp only [pairEdges] at h
    rcases List.mem_append.mp h with h1 | h2
    · rcases List.mem_filterMap.mp h1 with ⟨later, hlater, hsome⟩
      cases hrel : inferRelationship e later with
      | none => rw [hrel] at hsome; cases hsome
      | some t =>
        rw [hrel] at hsome
        simp only [Option.map_some'] at hsome
        injection hsome with h3
        subst h3
        constructor
        · exact List.mem_cons_self _ _
        · exact List.mem_cons_of_mem _ (List.mem_map_of_mem (·.id) hlater)
    · obtain ⟨hf, ht⟩ := pairEdges_mem rest ed h2
      exact ⟨List.mem_cons_of_mem _ hf, List.mem_cons_of_mem _ ht⟩

/-- Claim C5: for a batch of events with distinct ids, every episode
produced by `correlate` has `graph.nodes` equal (as a list) to
`Episode.events`, without duplicates, and every edge endpoint is a
node. -/
theorem correlate_graph_nodes (events : List NormalizedEvent)
    (hnd : (events.map (·.id)).Nodup) :
    ∀ ep ∈ correlate events,
      ep.graph.nodes = ep.events ∧ ep.graph.nodes.Nodup ∧
        ∀ ed ∈ ep.graph.edges, ed.fromId ∈ ep.graph.nodes ∧ ed.toId ∈ ep.graph.nodes := by
  intro ep hep
  rcases correlateFrom_mem (groupEvents events) 0 ep hep with ⟨j, g, hg, rfl⟩
  refine ⟨rfl, ?_, ?_⟩
  · have hflat := groupEvents_flatten events
    have hids : ((((groupEvents events).map (·.2)).flatten).map (·.id)).Nodup :=
      ((hflat.map (·.id)).nodup_iff).mpr hnd
    rw [List.map_flatten] at hids
    have hgnd : (g.2.map (·.id)).Nodup := by
      apply (List.nodup_flatten.mp hids).1
      rw [List.map_map]
      exact List.mem_map_of_mem _ hg
    have hsp : (sortEventsByTime g.2).Perm g.2 := List.perm_insertionSort _ _
    exact ((hsp.map (·.id)).nodup_iff).mpr hgnd
  · intro ed hed
    exact pairEdges_mem (sortEventsByTime g.2) ed hed

/-- Witness for C5 at a concrete batch. -/
theorem correlate_graph_nodes_witness :
    (([evPR, evDep] : List NormalizedEvent).map (·.id)).Nodup ∧
    (∀ ep ∈ correlate [evPR, evDep],
      ep.graph.nodes = ep.events ∧ ep.graph.nodes.Nodup ∧
        ∀ ed ∈ ep.graph.edges, ed.fromId ∈ ep.graph.nodes ∧ ed.toId ∈ ep.graph.nodes) :=
  ⟨by decide, correlate_graph_nodes [evPR, evDep] (by decide)⟩

/-! ## Claim C1: storage failure during `correlate` -/

theorem correlateGo_error (save : SaveEpisodeFn) :
    ∀ (gs : EventGroups) (i : Nat) (st : StorageState) (acc : List Episode)
      (st2 : StorageState),
      correlateGo save gs i st acc = .storageError st2 →
      ∃ k, ∃ hk : k < (correlateFrom i gs).length,
        saveUpTo save st ((correlateFrom i gs).take k) = some st2 ∧
        save ((correlateFrom i gs).get ⟨k, hk⟩) st2 = none
  | [], _, st, acc, st2, h => by simp [correlateGo] at h
  | g :: rest, i, st, acc, st2, h => by
    simp only [correlateGo] at h
    cases hs : save (createEpisode (episodeId i) g.2 (determineEpisodeType g.2)) st with
    | none =>
      simp only [hs] at h
      injection h with h4
      subst h4
      refine ⟨0, by simp [correlateFrom], ?_, ?_⟩
      · simp [saveUpTo]
      · simp only [correlateFrom, List.get]
        exact hs
    | some st3 =>
      simp only [hs] at h
      rcases correlateGo_error save rest (i + 1) st3
        (acc ++ [createEpisode (episodeId i) g.2 (determineEpisodeType g.2)]) st2 h with
        ⟨k, hk, hsp, hsv⟩
      have hk2 : k + 1 < (correlateFrom i (g :: rest)).length := by
        simp only [correlateFrom, List.length_cons]
        omega
      refine ⟨k + 1, hk2, ?_, ?_⟩
      · simp only [correlateFrom, List.take_succ_cons, saveUpTo, hs]
        exact hsp
      · simp only [correlateFrom, List.get]
        exact hsv

/-- Claim C1 (amended): when a `saveEpisode` write fails, the whole call
fails and returns no episodes, but the storage is NOT rolled back: on
error it holds exactly the successful writes of the episodes assembled
before the failing one (so it is unchanged only when the very first
write fails). -/
theorem correlateWithStorage_error_decomp (save : SaveEpisodeFn)
    (events : List NormalizedEvent) (st0 st' : StorageState)
    (h : correlateWithStorage save events st0 = .storageError st') :
    ∃ k, ∃ hk : k < (correlate events).length,
      saveUpTo save st0 ((correlate events).take k) = some st' ∧
      save ((correlate events).get ⟨k, hk⟩) st' = none := by
  unfold correlateWithStorage at h
  unfold correlate
  exact correlateGo_error save (groupEvents events) 0 st0 [] st' h

/-- Witness for the amended C1 at a concrete batch and a Storage whose
second write rejects. -/
theorem correlateWithStorage_error_decomp_witness :
    ∃ k, ∃ hk : k < (correlate [evPlainA, evPlainB]).length,
      saveUpTo saveFailSecond ⟨[]⟩ ((correlate [evPlainA, evPlainB]).take k)
        = some ⟨(correlate [evPlainA, evPlainB]).take 1⟩ ∧
      saveFailSecond ((correlate [evPlainA, evPlainB]).get ⟨k, hk⟩)
        ⟨(correlate [evPlainA, evPlainB]).take 1⟩ = none :=
  correlateWithStorage_error_decomp saveFailSecond [evPlainA, evPlainB] ⟨[]⟩
    ⟨(correlate [evPlainA, evPlainB]).take 1⟩ (by decide)

/-- Counterexample to claim C1 as stated: with a Storage whose second
write rejects, `correlate` over a two-group batch fails as a whole, yet
the first episode assembled from this very batch has been persisted —
the storage state on error is not unchanged. -/
theorem correlateWithStorage_partial_persist :
    ∃ st' : StorageState,
      correlateWithStorage saveFailSecond [evPlainA, evPlainB] ⟨[]⟩ = .storageError st' ∧
      st'.episodes = (correlate [evPlainA, evPlainB]).take 1 ∧
      st'.episodes ≠ [] :=
  ⟨⟨(correlate [evPlainA, evPlainB]).take 1⟩, by decide, by decide, by decide⟩

end VShield
